import Mathlib

/-!
Shallow embedding of the streaming byte I/O core of the `io2` crate
(`src/io/mod.rs`, `src/io/mem.rs`, `src/io/impls.rs`, `src/io/util.rs`).

Bytes are modelled as `Nat`, byte buffers as `List Nat`.  A Rust
`read(&mut buf)` call is modelled as a function from a requested buffer
size to the list of bytes actually produced (the first `n` bytes the
implementation wrote into the buffer) together with the successor state;
a `write(&[u8])` call maps the input buffer to the accepted byte count
and the successor state.  `io::Result` becomes `Except IOError`.
-/

namespace Io2

/-- Error kinds of `io::ErrorKind` that this layer itself produces, plus an
`other` constructor carrying a code so that distinct collaborator errors can
be told apart. -/
inductive IOError where
  | endOfFile : IOError
  | invalidInput : IOError
  | other (code : Nat) : IOError
deriving DecidableEq, Repr

/-- A `Read` implementation: `step s n` performs `read` on state `s` with a
caller-supplied buffer of length `n`, returning the bytes read and the new
state, or an I/O error. -/
structure Reader (σ : Type) where
  step : σ → Nat → Except IOError (List Nat × σ)

/-- A `Write` implementation: `step s buf` performs `write` on state `s`
with input `buf`, returning the number of bytes consumed and the new state,
or an I/O error. -/
structure Writer (σ : Type) where
  step : σ → List Nat → Except IOError (Nat × σ)

/-- Well-formedness of a writer per the `Write` contract: a successful
`write` consumes at most `buf.len()` bytes. -/
def WriterWF {σ : Type} (w : Writer σ) : Prop :=
  ∀ s buf n s2, w.step s buf = .ok (n, s2) → n ≤ buf.length

/-- The `impl Read for &[u8]` of `src/io/impls.rs`: copy
`min(buf.len(), self.len())` bytes from the front and shrink the slice past
them. -/
def sliceReader : Reader (List Nat) :=
  ⟨fun s n => .ok (s.take n, s.drop n)⟩

/-- The `Repeat` reader of `src/io/util.rs`: fill the whole buffer with the
stored byte and return `buf.len()`. -/
def repeatReader (b : Nat) : Reader Unit :=
  ⟨fun _ n => .ok (List.replicate n b, ())⟩

/-- A reader that fails every `read` call; a legal `Read` implementation
used to probe error propagation. -/
def errReader (code : Nat) : Reader Unit :=
  ⟨fun _ _ => .error (.other code)⟩

/-- The `impl Read for Take` of `src/io/mod.rs`: read into
`buf[..min(buf.len(), limit)]` from the inner reader and subtract the bytes
actually returned from the limit.  State is (inner state, remaining limit). -/
def takeReader {σ : Type} (r : Reader σ) : Reader (σ × Nat) :=
  ⟨fun sl n =>
    match r.step sl.1 (min n sl.2) with
    | .error e => .error e
    | .ok (bs, s2) => .ok (bs, (s2, sl.2 - bs.length))⟩

/-- The `impl Read for Chain` of `src/io/mod.rs`.  State is
(first state, second state, `done_first`).  If `done_first` is unset, read
the first source; a `0`-byte result latches `done_first` and the same call
falls through to the second source; a nonzero result returns immediately. -/
def chainReader {α β : Type} (a : Reader α) (b : Reader β) :
    Reader (α × β × Bool) :=
  ⟨fun s n =>
    match s with
    | (sa, sb, done) =>
      if done then
        match b.step sb n with
        | .error e => .error e
        | .ok (bs, sb2) => .ok (bs, (sa, sb2, true))
      else
        match a.step sa n with
        | .error e => .error e
        | .ok ([], sa2) =>
          match b.step sb n with
          | .error e => .error e
          | .ok (bs, sb2) => .ok (bs, (sa2, sb2, true))
        | .ok (bs, sa2) => .ok (bs, (sa2, sb, false))⟩

/-- Drive a reader through a sequence of `read` calls with the given buffer
sizes, concatenating the bytes produced; stop at the first error. -/
def runReads {σ : Type} (r : Reader σ) : σ → List Nat → List Nat × Except IOError σ
  | s, [] => ([], .ok s)
  | s, n :: ns =>
    match r.step s n with
    | .error e => ([], .error e)
    | .ok (bs, s2) =>
      let rest := runReads r s2 ns
      (bs ++ rest.1, rest.2)

/-- The `SeekPos` enum of `src/io/mod.rs`: `FromStart(u64)`, `FromEnd(i64)`,
`FromCur(i64)`.  The unsigned payload is a `Nat`, the signed ones are `Int`. -/
inductive SeekPos where
  | fromStart (n : Nat) : SeekPos
  | fromEnd (n : Int) : SeekPos
  | fromCur (n : Int) : SeekPos
deriving DecidableEq, Repr

/-- The value of the Rust cast `n as i64` for a `u64` value `n`: two's
complement reinterpretation (values at or above `2^63` become negative). -/
def i64ofU64 (n : Nat) : Int :=
  if n < 2 ^ 63 then (n : Int) else (n : Int) - 2 ^ 64

/-- Two's complement wrap of an `i64` arithmetic result into
`[-2^63, 2^63)`: release-mode Rust overflow semantics (a debug build
aborts on overflow instead; either way an overflowing operation never
yields the unwrapped mathematical value). -/
def wrapI64 (x : Int) : Int :=
  (x + 2 ^ 63) % 2 ^ 64 - 2 ^ 63

/-- The `Cursor<T>` of `src/io/mem.rs` with its storage flattened to a byte
list.  The three storage kinds (`&[u8]`, `&mut [u8]`, `Vec<u8>`) share this
state and, via the `seek!`, `read!` and `buffer!` macros, share the `seek`,
`read`, `fill_buf` and `consume` code verbatim; only `write` differs. -/
structure Cursor where
  pos : Nat
  inner : List Nat
deriving DecidableEq, Repr

/-- `Cursor::new`: position `0` over the given storage. -/
def Cursor.new (inner : List Nat) : Cursor := ⟨0, inner⟩

/-- The `seek!` macro: compute the target as an `i64`
(`FromStart(n) → n as i64`, `FromEnd(n) → len as i64 + n`,
`FromCur(n) → pos as i64 + n`).  Storage lengths are real allocation
sizes, hence below `2^63` (`isize::MAX`), so `len as i64` is the plain
coercion; `u64` values are cast through `i64ofU64`; the `i64` additions
wrap through `wrapI64` (overflow never yields the mathematical sum). -/
def seekTarget (c : Cursor) (style : SeekPos) : Int :=
  match style with
  | .fromStart n => i64ofU64 n
  | .fromEnd n => wrapI64 ((c.inner.length : Int) + n)
  | .fromCur n => wrapI64 (i64ofU64 c.pos + n)

/-- The branch of the `seek!` macro after the target computation: reject a
negative target with `InvalidInput`, otherwise store and return it. -/
def Cursor.seek (c : Cursor) (style : SeekPos) : Except IOError (Nat × Cursor) :=
  if seekTarget c style < 0 then .error .invalidInput
  else .ok ((seekTarget c style).toNat, { c with pos := (seekTarget c style).toNat })

/-- The `read!` macro: past-the-end position returns `0` bytes; otherwise
delegate to the `&[u8]` reader on `inner[pos..]` and advance the position by
the bytes produced. -/
def Cursor.read (c : Cursor) (n : Nat) : List Nat × Cursor :=
  if c.pos > c.inner.length then ([], c)
  else
    let bs := (c.inner.drop c.pos).take n
    (bs, { c with pos := c.pos + bs.length })

/-- The `buffer!` macro's `fill_buf`: the view `inner[pos..]` when
`pos < len`, else the empty view; the receiver is not mutated. -/
def Cursor.fillBuf (c : Cursor) : List Nat × Cursor :=
  if c.pos < c.inner.length then (c.inner.drop c.pos, c) else ([], c)

/-- The `buffer!` macro's `consume`: `pos += amt`. -/
def Cursor.consume (c : Cursor) (amt : Nat) : Cursor :=
  { c with pos := c.pos + amt }

/-- Overwrite `l[p .. p + d.length]` with `d` in place, the effect of
`slice::bytes::copy_memory(&mut l[p..], d)` (defined when
`p + d.length ≤ l.length`). -/
def writeAt (l : List Nat) (p : Nat) (d : List Nat) : List Nat :=
  l.take p ++ d ++ l.drop (p + d.length)

/-- The `impl Write for Cursor<Vec<u8>>` of `src/io/mem.rs`: append when
`pos == len`; otherwise compute the `i64` difference
`pos as i64 - len as i64` (wrapping cast; `none` models the abort when the
`i64` subtraction overflows), zero-fill up to `pos` when it is positive,
then split the input at `cap = len - pos` — a `usize` subtraction that
aborts (`none`) when `pos` exceeds the (possibly grown) length, which
happens exactly when the wrapped difference was negative with `pos`
actually past the end, i.e. `pos ≥ 2^63` — into an overlay (copied over
the existing bytes) and a tail (appended); on completion the position
advances by the full input length and the full input length is returned. -/
def Cursor.writeVec (c : Cursor) (buf : List Nat) : Option (Cursor × Nat) :=
  let pos := c.pos
  let len := c.inner.length
  if pos = len then
    some ({ pos := pos + buf.length, inner := c.inner ++ buf }, buf.length)
  else
    let difference : Int := i64ofU64 pos - (len : Int)
    if difference < -(2 ^ 63) ∨ 2 ^ 63 ≤ difference then none
    else
      let inner1 :=
        if difference > 0 then c.inner ++ List.replicate difference.toNat 0
        else c.inner
      let len1 := if difference > 0 then len + difference.toNat else len
      if len1 < pos then none
      else
        let cap := len1 - pos
        let lr : List Nat × List Nat :=
          if cap ≤ buf.length then (buf.take cap, buf.drop cap) else (buf, [])
        let inner2 := if lr.1.length > 0 then writeAt inner1 pos lr.1 else inner1
        let inner3 := if lr.2.length > 0 then inner2 ++ lr.2 else inner2
        some ({ pos := pos + buf.length, inner := inner3 }, buf.length)

/-- `Cursor<Vec<u8>>` as a `Writer`.  Its `write` has no error path; an
aborting write (position at or above `2^63`, which no cursor used by the
theorems below ever reaches) is mapped to an error only to keep the step
function total — no statement relies on that branch. -/
def cursorWriter : Writer Cursor :=
  ⟨fun c buf =>
    match c.writeVec buf with
    | some r => .ok (r.2, r.1)
    | none => .error (.other 0)⟩

/-- The `impl Write for &'a mut [u8]` of `src/io/impls.rs`: copy
`amt = min(data.len(), self.len())` bytes of `data` over the front of the
slice and shrink the slice view past them; always `Ok(amt)`.  The state is
the current view's contents; the result carries the accepted count, the
view region's contents after the copy, and the shrunk view. -/
def mutSliceWrite (s : List Nat) (data : List Nat) :
    Except IOError (Nat × List Nat × List Nat) :=
  let amt := min data.length s.length
  let region := data.take amt ++ s.drop amt
  .ok (amt, region, region.drop amt)

/-- A writer that fails every `write` call. -/
def errWriter (code : Nat) : Writer Unit :=
  ⟨fun _ _ => .error (.other code)⟩

/-- A writer that accepts nothing: every `write` returns `Ok(0)`. -/
def fullWriter : Writer Unit :=
  ⟨fun _ _ => .ok (0, ())⟩

/-- `WriteExt::write_all` of `src/io/mod.rs`: while bytes remain, call
`write` on the remainder; a returned `0` is an `EndOfFile` error, any error
is propagated, and a positive count drops that many bytes. -/
def writeAll {σ : Type} (w : Writer σ) (s : σ) (buf : List Nat) : Except IOError σ :=
  if h : buf = [] then .ok s
  else
    match w.step s buf with
    | .error e => .error e
    | .ok (0, _) => .error .endOfFile
    | .ok (n + 1, s2) => writeAll w s2 (buf.drop (n + 1))
termination_by buf.length
decreasing_by
  simp only [List.length_drop]
  have hl := List.length_pos.mpr h
  omega

/-- Instrumented `write_all` that additionally returns the total byte count
consumed across its `write` calls; same recursion as `writeAll`. -/
def writeAllC {σ : Type} (w : Writer σ) (s : σ) (buf : List Nat) :
    Except IOError (Nat × σ) :=
  if h : buf = [] then .ok (0, s)
  else
    match w.step s buf with
    | .error e => .error e
    | .ok (0, _) => .error .endOfFile
    | .ok (n + 1, s2) =>
      (writeAllC w s2 (buf.drop (n + 1))).map (fun r => (n + 1 + r.1, r.2))
termination_by buf.length
decreasing_by
  simp only [List.length_drop]
  have hl := List.length_pos.mpr h
  omega

/-- `copy` of `src/io/util.rs`, with explicit fuel (`none` = fuel ran out;
the Rust loop simply keeps running): read into a 64 KiB buffer; a `0`-byte
read returns the running total; otherwise `write_all` the bytes read and
add their count to the total. -/
def copyFuel {α β : Type} (r : Reader α) (w : Writer β) :
    Nat → α → β → Nat → Option (Except IOError (Nat × α × β))
  | 0, _, _, _ => none
  | fuel + 1, sa, sb, written =>
    match r.step sa 65536 with
    | .error e => some (.error e)
    | .ok ([], sa2) => some (.ok (written, sa2, sb))
    | .ok (b :: bs, sa2) =>
      match writeAll w sb (b :: bs) with
      | .error e => some (.error e)
      | .ok sb2 => copyFuel r w fuel sa2 sb2 (written + (b :: bs).length)

/-- Instrumented `copy` that records the list of (necessarily nonzero) read
counts instead of their running sum; same recursion as `copyFuel`. -/
def copyTr {α β : Type} (r : Reader α) (w : Writer β) :
    Nat → α → β → Option (Except IOError (List Nat × α × β))
  | 0, _, _ => none
  | fuel + 1, sa, sb =>
    match r.step sa 65536 with
    | .error e => some (.error e)
    | .ok ([], sa2) => some (.ok ([], sa2, sb))
    | .ok (b :: bs, sa2) =>
      match writeAll w sb (b :: bs) with
      | .error e => some (.error e)
      | .ok sb2 =>
        (copyTr r w fuel sa2 sb2).map (fun x =>
          x.map (fun t => ((b :: bs).length :: t.1, t.2)))

/-- The `UTF8_CHAR_WIDTH` table consulted by `core_str::utf8_char_width`:
`1` for ASCII, `0` for continuation bytes and the invalid leads
`C0`, `C1`, `F5`–`FF`, else the declared sequence width `2`–`4`. -/
def utf8CharWidth (b : Nat) : Nat :=
  if b < 0x80 then 1
  else if b < 0xC2 then 0
  else if b < 0xE0 then 2
  else if b < 0xF0 then 3
  else if b < 0xF5 then 4
  else 0

/-- A UTF-8 continuation byte: `0x80`–`0xBF`. -/
def isCont (b : Nat) : Bool := 0x80 ≤ b && b ≤ 0xBF

/-- `str::from_utf8(&buf[..width]).ok().map(|s| s.char_at(0))` on an
assembled sequence of `width` bytes: standard UTF-8 validation (correct
continuation ranges, no overlongs, no surrogates, scalar at most
`0x10FFFF`) producing the decoded scalar value. -/
def decodeUtf8 : List Nat → Option Nat
  | [b] => if b < 0x80 then some b else none
  | [b1, b2] =>
    if 0xC2 ≤ b1 && b1 ≤ 0xDF && isCont b2 then
      some ((b1 - 0xC0) * 64 + (b2 - 0x80))
    else none
  | [b1, b2, b3] =>
    if (b1 == 0xE0 && 0xA0 ≤ b2 && b2 ≤ 0xBF
        || 0xE1 ≤ b1 && b1 ≤ 0xEC && isCont b2
        || b1 == 0xED && 0x80 ≤ b2 && b2 ≤ 0x9F
        || 0xEE ≤ b1 && b1 ≤ 0xEF && isCont b2) && isCont b3 then
      some ((b1 - 0xE0) * 4096 + (b2 - 0x80) * 64 + (b3 - 0x80))
    else none
  | [b1, b2, b3, b4] =>
    if (b1 == 0xF0 && 0x90 ≤ b2 && b2 ≤ 0xBF
        || 0xF1 ≤ b1 && b1 ≤ 0xF3 && isCont b2
        || b1 == 0xF4 && 0x80 ≤ b2 && b2 ≤ 0x8F) && isCont b3 && isCont b4 then
      some ((b1 - 0xF0) * 262144 + (b2 - 0x80) * 4096 + (b3 - 0x80) * 64
            + (b4 - 0x80))
    else none
  | _ => none

/-- The `CharsError` enum of `src/io/mod.rs`: a decode failure (`NotUtf8`)
is disjoint from a wrapped I/O error. -/
inductive CharsError where
  | notUtf8 : CharsError
  | other (e : IOError) : CharsError
deriving DecidableEq, Repr

/-- The continuation-gathering loop of `Chars::next`: while bytes are
missing, read that many; a `0`-byte read is `NotUtf8` (EOF mid-sequence),
an error is wrapped, a full delivery breaks, a short one loops on the
remainder. -/
def readCont {σ : Type} (r : Reader σ) (s : σ) (remaining : Nat)
    (acc : List Nat) : σ × Except CharsError (List Nat) :=
  match r.step s remaining with
  | .error e => (s, .error (.other e))
  | .ok ([], s2) => (s2, .error .notUtf8)
  | .ok (b :: bs, s2) =>
    if remaining ≤ (b :: bs).length then
      (s2, .ok (acc ++ (b :: bs).take remaining))
    else
      readCont r s2 (remaining - (b :: bs).length) (acc ++ (b :: bs))
termination_by remaining
decreasing_by
  simp only [List.length_cons] at *
  omega

/-- `Chars::next` of `src/io/mod.rs`: read one byte (`0` bytes ⇒ end of
sequence, error ⇒ wrapped I/O error); classify it by `utf8_char_width`
(`1` ⇒ yield it as ASCII, `0` ⇒ `NotUtf8`); otherwise gather the remaining
`width - 1` bytes and validate the assembled sequence. -/
def charsNext {σ : Type} (r : Reader σ) (s : σ) :
    Option (Except CharsError Nat) × σ :=
  match r.step s 1 with
  | .error e => (some (.error (.other e)), s)
  | .ok ([], s2) => (none, s2)
  | .ok (b :: _, s2) =>
    let width := utf8CharWidth b
    if width = 1 then (some (.ok b), s2)
    else if width = 0 then (some (.error .notUtf8), s2)
    else
      match readCont r s2 (width - 1) [b] with
      | (s3, .error e) => (some (.error e), s3)
      | (s3, .ok bytes) =>
        match decodeUtf8 bytes with
        | some c => (some (.ok c), s3)
        | none => (some (.error .notUtf8), s3)

/-- Iterate `charsNext` under fuel, collecting the yielded items until the
iterator reports end of sequence. -/
def charsRun {σ : Type} (r : Reader σ) : Nat → σ → List (Except CharsError Nat) × σ
  | 0, s => ([], s)
  | fuel + 1, s =>
    match charsNext r s with
    | (none, s2) => ([], s2)
    | (some x, s2) =>
      let rest := charsRun r fuel s2
      (x :: rest.1, rest.2)

/-- Modelled from the spec's words for the concatenation property (C6's
reference semantics, to be compared with `chainReader`): the output of a
run is the first source's output up to its first `0`-byte read, after
which that same call and every later call are served by the second
source. -/
def chainSpecRun {α β : Type} (a : Reader α) (b : Reader β) :
    α → β → List Nat → List Nat × Except IOError (α × β × Bool)
  | sa, sb, [] => ([], .ok (sa, sb, false))
  | sa, sb, n :: ns =>
    match a.step sa n with
    | .error e => ([], .error e)
    | .ok ([], sa2) =>
      let rest := runReads b sb (n :: ns)
      (rest.1, rest.2.map (fun sb2 => (sa2, sb2, true)))
    | .ok (bs, sa2) =>
      let rest := chainSpecRun a b sa2 sb ns
      (bs ++ rest.1, rest.2)

/-! Helper lemmas shared by several claims. -/

lemma drop_append_of_len {α : Type} {l m : List α} {k : Nat}
    (h : l.length = k) : (l ++ m).drop k = m := by
  subst h; exact List.drop_left l m

lemma take_append_of_len {α : Type} {l m : List α} {k : Nat}
    (h : l.length = k) : (l ++ m).take k = l := by
  subst h; exact List.take_left l m

lemma seek_inner_eq (c : Cursor) (style : SeekPos) (r : Nat) (c2 : Cursor)
    (h : c.seek style = .ok (r, c2)) : c2.inner = c.inner := by
  unfold Cursor.seek at h
  split at h
  · simp at h
  · simp only [Except.ok.injEq, Prod.mk.injEq] at h
    rw [← h.2]

lemma seek_fromStart_lt (c : Cursor) (n : Nat) (h : n < 2 ^ 63) :
    c.seek (.fromStart n) = .ok (n, { c with pos := n }) := by
  have h9 : n < 9223372036854775808 := by simpa using h
  have ht : seekTarget c (.fromStart n) = (n : Int) := by
    simp [seekTarget, i64ofU64, h9]
  have hnn : ¬ (seekTarget c (.fromStart n) < 0) := by rw [ht]; omega
  simp [Cursor.seek, hnn, ht]

lemma wrapI64_eq_self (x : Int) (h1 : -(2 ^ 63) ≤ x) (h2 : x < 2 ^ 63) :
    wrapI64 x = x := by
  unfold wrapI64
  rw [Int.emod_eq_of_lt (by omega) (by omega)]
  omega

/-- C8 counterexample: `FromEnd(i64::MAX)` on a cursor over one byte
satisfies `n ≥ -length`, but the `i64` addition `len as i64 + n` overflows
and wraps to `-2^63`, so the seek fails with `InvalidInput` instead of
succeeding with position `length + n` (a debug build aborts on the same
input — either way there is no success). -/
theorem seek_fromEnd_overflow_fails :
    Cursor.seek ⟨0, [7]⟩ (.fromEnd (2 ^ 63 - 1)) = .error .invalidInput := by
  have ht : seekTarget ⟨0, [7]⟩ (.fromEnd (2 ^ 63 - 1)) = -(2 ^ 63) := by
    norm_num [seekTarget, wrapI64]
  unfold Cursor.seek
  rw [ht]
  norm_num

/-- C8 (amended): `FromEnd(-1)` on an empty cursor fails with
`InvalidInput` whatever the current position; `FromEnd(n)` with
`n ≥ -length` succeeds, setting and returning position `length + n` (the
coercion equation shows the stored value is the exact sum, not a wrapped
one), provided `length + n < 2^63` so the `i64` addition does not overflow
(the counterexample shows the overflowing case fails instead); and a
computed position that would be negative is rejected with `InvalidInput`
rather than stored wrapped. -/
theorem seek_fromEnd_spec :
    (∀ p : Nat, Cursor.seek ⟨p, []⟩ (.fromEnd (-1)) = .error .invalidInput)
    ∧ (∀ (c : Cursor) (n : Int), -(c.inner.length : Int) ≤ n →
        (c.inner.length : Int) + n < 2 ^ 63 →
        c.seek (.fromEnd n)
          = .ok (((c.inner.length : Int) + n).toNat,
                 { c with pos := ((c.inner.length : Int) + n).toNat })
          ∧ (((c.inner.length : Int) + n).toNat : Int) = (c.inner.length : Int) + n)
    ∧ (∀ (c : Cursor) (n : Int), -(2 ^ 63) ≤ (c.inner.length : Int) + n →
        (c.inner.length : Int) + n < 0 →
        c.seek (.fromEnd n) = .error .invalidInput) := by
  have htgt : ∀ (c : Cursor) (n : Int),
      seekTarget c (.fromEnd n) = wrapI64 ((c.inner.length : Int) + n) :=
    fun _ _ => rfl
  refine ⟨fun p => ?_, fun c n h1 h2 => ?_, fun c n h0 h => ?_⟩
  · have ht : seekTarget ⟨p, []⟩ (.fromEnd (-1)) = -1 := by
      rw [htgt]
      norm_num [wrapI64]
    simp [Cursor.seek, ht]
  · have hx : wrapI64 ((c.inner.length : Int) + n) = (c.inner.length : Int) + n :=
      wrapI64_eq_self _ (by omega) h2
    refine ⟨?_, ?_⟩
    · unfold Cursor.seek
      rw [htgt, hx, if_neg (by omega : ¬ ((c.inner.length : Int) + n < 0))]
    · have := Int.toNat_of_nonneg (a := (c.inner.length : Int) + n) (by omega)
      omega
  · have hx : wrapI64 ((c.inner.length : Int) + n) = (c.inner.length : Int) + n :=
      wrapI64_eq_self _ h0 (by omega)
    simp [Cursor.seek, htgt, hx, h]

/-- C8 witness: concrete instantiations of all three conjuncts of the
amended seek theorem. -/
theorem seek_fromEnd_spec_witness :
    Cursor.seek ⟨7, []⟩ (.fromEnd (-1)) = .error .invalidInput
    ∧ Cursor.seek ⟨0, [1, 2]⟩ (.fromEnd (-1)) = .ok (1, ⟨1, [1, 2]⟩)
    ∧ Cursor.seek ⟨0, []⟩ (.fromEnd (-2)) = .error .invalidInput := by
  refine ⟨seek_fromEnd_spec.1 7, ?_,
    seek_fromEnd_spec.2.2 ⟨0, []⟩ (-2) (by norm_num) (by norm_num)⟩
  have h := (seek_fromEnd_spec.2.1 ⟨0, [1, 2]⟩ (-1) (by norm_num) (by norm_num)).1
  simpa using h

/-- C2 counterexample: the claim says `seek(FromStart(n))` succeeds for
every unsigned 64-bit `n`, but the cast `n as i64` makes `n = 2^63`
negative, so the seek fails with `InvalidInput`. -/
theorem seek_fromStart_huge_fails :
    Cursor.seek ⟨0, []⟩ (.fromStart (2 ^ 63)) = .error .invalidInput := by
  norm_num [Cursor.seek, seekTarget, i64ofU64]

/-- C2 (amended): for every cursor and every `n` below `2^63` (a `u64`
whose `as i64` cast is nonnegative), `seek(FromStart(n))` succeeds, sets
the position to exactly `n`, and returns `n`. -/
theorem seek_fromStart_ok (c : Cursor) (n : Nat) (h : n < 2 ^ 63) :
    c.seek (.fromStart n) = .ok (n, { c with pos := n }) :=
  seek_fromStart_lt c n h

/-- C2 witness: the amended seek theorem at a concrete input. -/
theorem seek_fromStart_ok_witness :
    Cursor.seek ⟨3, [9]⟩ (.fromStart 5) = .ok (5, ⟨5, [9]⟩) :=
  seek_fromStart_ok ⟨3, [9]⟩ 5 (by decide)

/-- C9: on every cursor (the three storage kinds share this state and this
code), `read`, `seek`, `fill_buf` and `consume` leave the storage's length
and contents unchanged, modifying only the position: `read` advances it by
the number of bytes produced, a successful `seek` only replaces it,
`fill_buf` changes nothing, and `consume amt` adds `amt` to it. -/
theorem cursor_frame (c : Cursor) (n amt : Nat) (style : SeekPos) :
    (c.read n).2.inner = c.inner
    ∧ (c.read n).2.pos = c.pos + (c.read n).1.length
    ∧ (∀ r c2, c.seek style = .ok (r, c2) → c2.inner = c.inner)
    ∧ c.fillBuf.2 = c
    ∧ (c.consume amt).inner = c.inner
    ∧ (c.consume amt).pos = c.pos + amt := by
  refine ⟨?_, ?_, fun r c2 h => seek_inner_eq c style r c2 h, ?_, rfl, rfl⟩
  · unfold Cursor.read; split <;> simp
  · unfold Cursor.read; split <;> simp
  · unfold Cursor.fillBuf; split <;> simp

/-- C9 witness: the read and seek conjuncts of the frame theorem at a
concrete input. -/
theorem cursor_frame_witness :
    ((Cursor.mk 0 [4, 5]).read 1).2.inner = [4, 5]
    ∧ ((⟨1, [4, 5]⟩ : Cursor)).inner = [4, 5] :=
  ⟨(cursor_frame ⟨0, [4, 5]⟩ 1 0 (.fromStart 1)).1,
   (cursor_frame ⟨0, [4, 5]⟩ 1 0 (.fromStart 1)).2.2.1 1 ⟨1, [4, 5]⟩ (by rfl)⟩

/-- C10: the `&mut [u8]` writer never fails: it returns
`Ok(min(data.len(), slice.len()))`, the front of the written region holds
exactly those bytes of `data`, the view shrinks past them, and a write into
an exhausted (empty) slice returns `Ok(0)`. -/
theorem mutSliceWrite_spec (s data : List Nat) :
    mutSliceWrite s data
      = .ok (min data.length s.length,
             data.take (min data.length s.length)
               ++ s.drop (min data.length s.length),
             s.drop (min data.length s.length))
    ∧ mutSliceWrite [] data = .ok (0, [], []) := by
  have hdrop : (data.take (min data.length s.length)
      ++ s.drop (min data.length s.length)).drop (min data.length s.length)
      = s.drop (min data.length s.length) :=
    drop_append_of_len (by rw [List.length_take]; omega)
  constructor
  · simp only [mutSliceWrite]
    rw [hdrop]
  · simp [mutSliceWrite]

/-- C10 witness: the slice-writer theorem at concrete inputs, including the
full-slice case. -/
theorem mutSliceWrite_spec_witness :
    mutSliceWrite [5, 6] [7, 8, 9] = .ok (2, [7, 8], [])
    ∧ mutSliceWrite [] [7] = .ok (0, [], []) := by
  refine ⟨?_, (mutSliceWrite_spec [5, 6] [7]).2⟩
  simpa using (mutSliceWrite_spec [5, 6] [7, 8, 9]).1

lemma writeVec_append (c : Cursor) (buf : List Nat) (h : c.pos = c.inner.length) :
    c.writeVec buf
      = some ({ pos := c.pos + buf.length, inner := c.inner ++ buf },
              buf.length) := by
  unfold Cursor.writeVec
  dsimp only
  rw [if_pos h]

lemma writeVec_gap (v buf : List Nat) (k : Nat) (hk : 0 < k)
    (hub : v.length + k < 2 ^ 63) :
    ({ pos := v.length + k, inner := v } : Cursor).writeVec buf
      = some ({ pos := v.length + k + buf.length,
                inner := v ++ List.replicate k 0 ++ buf }, buf.length) := by
  have hne : ¬ (v.length + k = v.length) := by omega
  have hi : i64ofU64 (v.length + k) = ((v.length + k : Nat) : Int) := by
    unfold i64ofU64
    rw [if_pos hub]
  have hd : i64ofU64 (v.length + k) - (v.length : Int) = (k : Int) := by
    rw [hi]; push_cast; ring
  unfold Cursor.writeVec
  dsimp only
  rw [if_neg hne, hd]
  have hg : ¬ ((k : Int) < -(2 ^ 63) ∨ 2 ^ 63 ≤ (k : Int)) := by
    push_cast at hub ⊢; omega
  have hdp : (k : Int) > 0 := by omega
  rw [if_neg hg, if_pos hdp, if_pos hdp]
  simp only [Int.toNat_natCast]
  rw [if_neg (lt_irrefl (v.length + k))]
  simp only [Nat.sub_self, List.take_zero, List.drop_zero, Nat.zero_le, if_true,
    List.length_nil, gt_iff_lt, lt_irrefl, if_false, le_refl]
  cases buf with
  | nil => simp
  | cons b bs => simp

lemma writeVec_count (c : Cursor) (buf : List Nat) (r : Cursor × Nat)
    (h : c.writeVec buf = some r) :
    r.2 = buf.length ∧ r.1.pos = c.pos + buf.length := by
  unfold Cursor.writeVec at h
  dsimp only at h
  by_cases h1 : c.pos = c.inner.length
  · rw [if_pos h1] at h
    simp only [Option.some.injEq] at h
    rw [← h]
    exact ⟨rfl, rfl⟩
  · rw [if_neg h1] at h
    by_cases h2 : i64ofU64 c.pos - (c.inner.length : Int) < -(2 ^ 63)
        ∨ 2 ^ 63 ≤ i64ofU64 c.pos - (c.inner.length : Int)
    · rw [if_pos h2] at h
      simp at h
    · rw [if_neg h2] at h
      by_cases h3 : i64ofU64 c.pos - (c.inner.length : Int) > 0
      · rw [if_pos h3, if_pos h3] at h
        by_cases h4 : c.inner.length
            + (i64ofU64 c.pos - (c.inner.length : Int)).toNat < c.pos
        · rw [if_pos h4] at h
          simp at h
        · rw [if_neg h4] at h
          simp only [Option.some.injEq] at h
          rw [← h]
          exact ⟨rfl, rfl⟩
      · rw [if_neg h3, if_neg h3] at h
        by_cases h4 : c.inner.length < c.pos
        · rw [if_pos h4] at h
          simp at h
        · rw [if_neg h4] at h
          simp only [Option.some.injEq] at h
          rw [← h]
          exact ⟨rfl, rfl⟩

lemma writeVec_some_of_pos (c : Cursor) (buf : List Nat) (hp : c.pos < 2 ^ 63)
    (hl : c.inner.length < 2 ^ 63) :
    ∃ c2, c.writeVec buf = some (c2, buf.length)
      ∧ c2.pos = c.pos + buf.length := by
  by_cases h : c.pos = c.inner.length
  · exact ⟨_, writeVec_append c buf h, rfl⟩
  · unfold Cursor.writeVec
    dsimp only
    rw [if_neg h]
    have hi : i64ofU64 c.pos = (c.pos : Int) := by
      unfold i64ofU64
      rw [if_pos hp]
    rw [hi]
    have hg : ¬ ((c.pos : Int) - (c.inner.length : Int) < -(2 ^ 63)
        ∨ 2 ^ 63 ≤ (c.pos : Int) - (c.inner.length : Int)) := by omega
    rw [if_neg hg]
    by_cases hgt : (c.pos : Int) - (c.inner.length : Int) > 0
    · rw [if_pos hgt, if_pos hgt]
      have hlen1 : ¬ (c.inner.length
          + ((c.pos : Int) - (c.inner.length : Int)).toNat < c.pos) := by omega
      rw [if_neg hlen1]
      exact ⟨_, rfl, rfl⟩
    · rw [if_neg hgt, if_neg hgt]
      have hlen1 : ¬ (c.inner.length < c.pos) := by omega
      rw [if_neg hlen1]
      exact ⟨_, rfl, rfl⟩

/-- C1 counterexample: a growable-buffer write at position `2^63` aborts
(the wrapped `i64` difference is negative, so the zero-fill is skipped and
the `usize` subtraction in `len - pos` underflows) instead of returning the
full input length; and the claimed seek to `length + k` itself fails with
`InvalidInput` for `k = 2^63` on a 1-byte storage, so the claim's scenario
cannot run there at all. -/
theorem cursor_growable_gap_write_cex :
    Cursor.writeVec ⟨2 ^ 63, []⟩ [5] = none
    ∧ (Cursor.new [7]).seek (.fromStart (1 + 2 ^ 63)) = .error .invalidInput := by
  constructor
  · norm_num [Cursor.writeVec, i64ofU64]
  · have ht : seekTarget (Cursor.new [7]) (.fromStart (1 + 2 ^ 63))
        = 1 - 2 ^ 63 := by
      norm_num [seekTarget, i64ofU64]
    unfold Cursor.seek
    rw [ht]
    norm_num

/-- C1 (amended): with `length + k < 2^63` — precisely when the claimed
seek to `length + k` can succeed at all (`k > 0`; the counterexample shows
that a larger target makes the seek fail and a write at a position `≥ 2^63`
aborts) — seeking and then writing `buf` completes with storage
`v ++ 0^k ++ buf`: the `k` bytes after the old end are all zero, the bytes
from `length + k` on are exactly `buf`, the returned count is the full
input length and the position advances by exactly that much; and every
growable-buffer write whose position and storage length are below `2^63`
completes, returning the full input length and advancing the position by
the full input length. -/
theorem cursor_growable_gap_write (v buf : List Nat) (k : Nat) (hk : 0 < k)
    (hub : v.length + k < 2 ^ 63) :
    (Cursor.new v).seek (.fromStart (v.length + k))
        = .ok (v.length + k, ⟨v.length + k, v⟩)
    ∧ ({ pos := v.length + k, inner := v } : Cursor).writeVec buf
        = some (⟨v.length + k + buf.length, v ++ List.replicate k 0 ++ buf⟩,
                buf.length)
    ∧ (∀ c2 cnt,
        ({ pos := v.length + k, inner := v } : Cursor).writeVec buf
            = some (c2, cnt) →
        (c2.inner.drop v.length).take k = List.replicate k 0
        ∧ c2.inner.drop (v.length + k) = buf
        ∧ cnt = buf.length
        ∧ c2.pos = v.length + k + buf.length)
    ∧ (∀ (c : Cursor) (data : List Nat), c.pos < 2 ^ 63 →
        c.inner.length < 2 ^ 63 →
        ∃ c2, c.writeVec data = some (c2, data.length)
          ∧ c2.pos = c.pos + data.length) := by
  refine ⟨seek_fromStart_lt (Cursor.new v) (v.length + k) hub,
    writeVec_gap v buf k hk hub, fun c2 cnt h => ?_,
    fun c data hp hl => writeVec_some_of_pos c data hp hl⟩
  rw [writeVec_gap v buf k hk hub] at h
  simp only [Option.some.injEq, Prod.mk.injEq] at h
  obtain ⟨h1, h2⟩ := h
  rw [← h1, ← h2]
  refine ⟨?_, ?_, rfl, rfl⟩
  · simp only [List.append_assoc]
    rw [drop_append_of_len rfl]
    exact take_append_of_len (List.length_replicate k 0)
  · exact drop_append_of_len (by simp)

/-- C1 witness: the gap-write conjuncts of the amended theorem at storage
`[1, 2]`, gap `2`, input `[7]`, and the bounded count/position conjunct at
a past-the-end cursor. -/
theorem cursor_growable_gap_write_witness :
    ({ pos := 4, inner := [1, 2] } : Cursor).writeVec [7]
      = some (⟨5, [1, 2, 0, 0, 7]⟩, 1)
    ∧ ((⟨5, [1, 2, 0, 0, 7]⟩ : Cursor).inner.drop 2).take 2 = List.replicate 2 0
    ∧ (⟨5, [1, 2, 0, 0, 7]⟩ : Cursor).inner.drop 4 = [7]
    ∧ ∃ c2, ({ pos := 9, inner := [] } : Cursor).writeVec [5, 6]
        = some (c2, 2) ∧ c2.pos = 11 := by
  have hg : ({ pos := 4, inner := [1, 2] } : Cursor).writeVec [7]
      = some (⟨5, [1, 2, 0, 0, 7]⟩, 1) :=
    (cursor_growable_gap_write [1, 2] [7] 2 (by decide) (by decide)).2.1
  have hc := (cursor_growable_gap_write [1, 2] [7] 2 (by decide) (by decide)).2.2.1
    ⟨5, [1, 2, 0, 0, 7]⟩ 1 hg
  have he := (cursor_growable_gap_write [1, 2] [7] 2 (by decide) (by decide)).2.2.2
    ⟨9, []⟩ [5, 6] (by decide) (by decide)
  exact ⟨hg, hc.1, hc.2.1, he⟩

lemma writeAll_head_error {σ : Type} (w : Writer σ) (s : σ) (buf : List Nat)
    (e : IOError) (hne : buf ≠ []) (h : w.step s buf = .error e) :
    writeAll w s buf = .error e := by
  rw [writeAll, dif_neg hne, h]

lemma writeAll_zero_eof {σ : Type} (w : Writer σ) (s : σ) (buf : List Nat)
    (s2 : σ) (hne : buf ≠ []) (h : w.step s buf = .ok (0, s2)) :
    writeAll w s buf = .error .endOfFile := by
  rw [writeAll, dif_neg hne, h]

lemma writeAllC_ok_length {σ : Type} (w : Writer σ) (hw : WriterWF w) :
    ∀ (n : Nat) (buf : List Nat), buf.length ≤ n → ∀ (s : σ) (r : Nat × σ),
      writeAllC w s buf = .ok r → r.1 = buf.length := by
  intro n
  induction n with
  | zero =>
    intro buf hlen s r h
    have hbuf : buf = [] := by
      cases buf with
      | nil => rfl
      | cons a l => simp at hlen
    subst hbuf
    rw [writeAllC, dif_pos rfl] at h
    simp only [Except.ok.injEq] at h
    rw [← h]
    rfl
  | succ n ih =>
    intro buf hlen s r h
    by_cases hb : buf = []
    · subst hb
      rw [writeAllC, dif_pos rfl] at h
      simp only [Except.ok.injEq] at h
      rw [← h]
      rfl
    · rw [writeAllC, dif_neg hb] at h
      cases hstep : w.step s buf with
      | error e => rw [hstep] at h; simp at h
      | ok p =>
        obtain ⟨m, s2⟩ := p
        rw [hstep] at h
        cases m with
        | zero => simp at h
        | succ m0 =>
          dsimp only at h
          cases hrec : writeAllC w s2 (buf.drop (m0 + 1)) with
          | error e => rw [hrec] at h; simp [Except.map] at h
          | ok r2 =>
            rw [hrec] at h
            simp only [Except.map, Except.ok.injEq] at h
            have hm : m0 + 1 ≤ buf.length := hw s buf (m0 + 1) s2 hstep
            have hpos : 0 < buf.length := List.length_pos.mpr hb
            have hlen2 : (buf.drop (m0 + 1)).length ≤ n := by
              rw [List.length_drop]; omega
            have hr2 := ih (buf.drop (m0 + 1)) hlen2 s2 r2 hrec
            rw [List.length_drop] at hr2
            rw [← h]
            simp only []
            omega

lemma writeAll_eq_writeAllC {σ : Type} (w : Writer σ) :
    ∀ (n : Nat) (buf : List Nat), buf.length ≤ n → ∀ s : σ,
      writeAll w s buf = (writeAllC w s buf).map Prod.snd := by
  intro n
  induction n with
  | zero =>
    intro buf hlen s
    have hbuf : buf = [] := by
      cases buf with
      | nil => rfl
      | cons a l => simp at hlen
    subst hbuf
    rw [writeAll, writeAllC, dif_pos rfl, dif_pos rfl]
    rfl
  | succ n ih =>
    intro buf hlen s
    by_cases hb : buf = []
    · subst hb
      rw [writeAll, writeAllC, dif_pos rfl, dif_pos rfl]
      rfl
    · rw [writeAll, writeAllC, dif_neg hb, dif_neg hb]
      cases hstep : w.step s buf with
      | error e => rfl
      | ok p =>
        obtain ⟨m, s2⟩ := p
        cases m with
        | zero => rfl
        | succ m0 =>
          dsimp only
          have hpos : 0 < buf.length := List.length_pos.mpr hb
          have hlen2 : (buf.drop (m0 + 1)).length ≤ n := by
            rw [List.length_drop]; omega
          rw [ih (buf.drop (m0 + 1)) hlen2 s2]
          cases writeAllC w s2 (buf.drop (m0 + 1)) <;> rfl

lemma cursorWriter_wf : WriterWF cursorWriter := by
  intro s buf n s2 h
  simp only [cursorWriter] at h
  cases hv : s.writeVec buf with
  | none => rw [hv] at h; simp at h
  | some r =>
    rw [hv] at h
    dsimp only at h
    simp only [Except.ok.injEq, Prod.mk.injEq] at h
    rw [← h.1, (writeVec_count s buf r hv).1]

/-- C5: `write_all` repeatedly calls `write` on the unconsumed remainder:
a `write` error (possible only while bytes remain) is propagated as the
first error; a `write` returning `0` with bytes remaining fails with the
`EndOfFile` kind; success implies the total consumed count equals the full
buffer length (for any contract-abiding writer); and an empty buffer
succeeds at once. -/
theorem write_all_spec {σ : Type} (w : Writer σ) (s : σ) (buf : List Nat) :
    (∀ e, buf ≠ [] → w.step s buf = .error e → writeAll w s buf = .error e)
    ∧ (∀ s2, buf ≠ [] → w.step s buf = .ok (0, s2) →
        writeAll w s buf = .error .endOfFile)
    ∧ (WriterWF w → ∀ r, writeAllC w s buf = .ok r → r.1 = buf.length)
    ∧ writeAll w s buf = (writeAllC w s buf).map Prod.snd
    ∧ writeAll w s [] = .ok s :=
  ⟨fun e hne h => writeAll_head_error w s buf e hne h,
   fun s2 hne h => writeAll_zero_eof w s buf s2 hne h,
   fun hw r h => writeAllC_ok_length w hw buf.length buf le_rfl s r h,
   writeAll_eq_writeAllC w buf.length buf le_rfl s,
   by rw [writeAll, dif_pos rfl]⟩

/-- C5 witness: error propagation, the zero-write `EndOfFile` case, and
full consumption on success, each at concrete inputs. -/
theorem write_all_spec_witness :
    writeAll (errWriter 3) () [1] = .error (.other 3)
    ∧ writeAll fullWriter () [1] = .error .endOfFile
    ∧ (writeAllC cursorWriter ⟨0, []⟩ [4, 5] = .ok (2, ⟨2, [4, 5]⟩) → (2 : Nat) = 2) := by
  refine ⟨(write_all_spec (errWriter 3) () [1]).1 (.other 3) (by simp) rfl,
    (write_all_spec fullWriter () [1]).2.1 () (by simp) rfl,
    fun h => ?_⟩
  have := (write_all_spec cursorWriter ⟨0, []⟩ [4, 5]).2.2.1 cursorWriter_wf
    (2, ⟨2, [4, 5]⟩) h
  exact this

lemma takeRepeat_step (b N n : Nat) :
    (takeReader (repeatReader b)).step ((), N) n
      = .ok (List.replicate (min n N) b, ((), N - min n N)) := by
  simp [takeReader, repeatReader]

lemma take_repeat_le (b : Nat) :
    ∀ (ns : List Nat) (N : Nat),
      (runReads (takeReader (repeatReader b)) ((), N) ns).1.length ≤ N := by
  intro ns
  induction ns with
  | nil => intro N; simp [runReads]
  | cons n ns ih =>
    intro N
    simp only [runReads, takeRepeat_step, List.length_append, List.length_replicate]
    have h1 : min n N ≤ N := Nat.min_le_right n N
    have h2 := ih (N - min n N)
    omega

lemma take_repeat_exact (b : Nat) :
    ∀ (ns : List Nat) (N : Nat), N ≤ ns.length → (∀ n ∈ ns, 1 ≤ n) →
      (runReads (takeReader (repeatReader b)) ((), N) ns).1.length = N := by
  intro ns
  induction ns with
  | nil =>
    intro N hN _
    simp at hN
    simp [runReads, hN]
  | cons n ns ih =>
    intro N hN hall
    simp only [runReads, takeRepeat_step, List.length_append, List.length_replicate]
    have hn : 1 ≤ n := hall n (by simp)
    have hrest : ∀ m ∈ ns, 1 ≤ m := fun m hm => hall m (by simp [hm])
    have hlen : N - min n N ≤ ns.length := by
      simp only [List.length_cons] at hN
      rcases Nat.le_total n N with h | h
      · rw [Nat.min_eq_left h]; omega
      · rw [Nat.min_eq_right h]; omega
    have h2 := ih (N - min n N) hlen hrest
    have h1 : min n N ≤ N := Nat.min_le_right n N
    omega

/-- C3 counterexample: with the remaining quota already `0`, `Take::read`
still calls the inner reader (with an empty sub-buffer) and propagates its
error, so a read after exhaustion need not return `0`. -/
theorem take_exhausted_inner_error :
    (takeReader (errReader 7)).step ((), 0) 1 = .error (.other 7) := rfl

/-- C3 (amended): once the quota is `0`, every further read asks the inner
source for `0` bytes and returns `0` whenever that empty read succeeds
(an inner error is still propagated, as the counterexample shows); and a
`Take` over the infinite `Repeat` source bounded to `N` bytes yields at
most `N` bytes across any sequence of reads, and exactly `N` once at least
`N` calls with nonempty buffers have been made. -/
theorem take_spec :
    (∀ (σ : Type) (r : Reader σ) (s s2 : σ) (n : Nat),
        r.step s 0 = .ok ([], s2) →
        (takeReader r).step (s, 0) n = .ok ([], (s2, 0)))
    ∧ (∀ (b N : Nat) (ns : List Nat),
        (runReads (takeReader (repeatReader b)) ((), N) ns).1.length ≤ N)
    ∧ (∀ (b N : Nat) (ns : List Nat), N ≤ ns.length → (∀ n ∈ ns, 1 ≤ n) →
        (runReads (takeReader (repeatReader b)) ((), N) ns).1.length = N) :=
  ⟨fun σ r s s2 n h => by simp [takeReader, Nat.min_zero, h],
   fun b N ns => take_repeat_le b ns N,
   fun b N ns hN hall => take_repeat_exact b ns N hN hall⟩

/-- C3 witness: the quota-0 read on a well-behaved inner source, and the
exactly-`N` property, at concrete inputs. -/
theorem take_spec_witness :
    (takeReader (repeatReader 5)).step ((), 0) 3 = .ok ([], ((), 0))
    ∧ (runReads (takeReader (repeatReader 1)) ((), 2) [1, 1, 1]).1.length = 2 :=
  ⟨take_spec.1 Unit (repeatReader 5) () () 3 rfl,
   take_spec.2.2 1 2 [1, 1, 1] (by simp) (by simp)⟩

lemma sliceReader_step (s : List Nat) (n : Nat) :
    sliceReader.step s n = .ok (s.take n, s.drop n) := rfl

lemma readCont_eof (rem : Nat) (acc : List Nat) (h : 0 < rem) :
    readCont sliceReader ([] : List Nat) rem acc = ([], .error .notUtf8) := by
  rw [readCont]
  simp [sliceReader_step]

lemma readCont_short (rest : List Nat) (rem : Nat) (acc : List Nat)
    (h0 : 0 < rem) (hl : rest.length < rem) :
    readCont sliceReader rest rem acc = ([], .error .notUtf8) := by
  cases rest with
  | nil => exact readCont_eof rem acc h0
  | cons r rs =>
    rw [readCont]
    have htake : (r :: rs).take rem = r :: rs :=
      List.take_of_length_le (le_of_lt hl)
    have hdrop : (r :: rs).drop rem = [] :=
      List.drop_eq_nil_of_le (le_of_lt hl)
    have hcond : ¬ (rem ≤ (r :: rs).length) := by omega
    simp only [sliceReader_step, htake, hdrop]
    rw [if_neg hcond]
    exact readCont_eof _ _ (by simp at hl ⊢; omega)

lemma chars_truncated (b : Nat) (rest : List Nat)
    (h2 : 2 ≤ utf8CharWidth b) (hl : rest.length < utf8CharWidth b - 1) :
    (charsNext sliceReader (b :: rest)).1 = some (.error .notUtf8) := by
  have hw1 : ¬ (utf8CharWidth b = 1) := by omega
  have hw0 : ¬ (utf8CharWidth b = 0) := by omega
  unfold charsNext
  simp only [sliceReader_step, List.take_succ_cons, List.take_zero,
    List.drop_succ_cons, List.drop_zero, if_neg hw1, if_neg hw0,
    readCont_short rest (utf8CharWidth b - 1) [b] (by omega) hl]

/-- C4: the character decoder over the byte stream of `"Vi"`, the 3-byte
sequence `E1 BB 87`, and `"t"` yields the scalars of `V`, `i`, `U+1EC7`
and `t` and then reports end of sequence; over the single byte `0x80` it
yields exactly one `NotUtf8` decode error and then end of sequence; and a
slice-backed stream that ends in the middle of a declared multi-byte
sequence yields a `NotUtf8` decode error, not an I/O error. -/
theorem chars_decoder_spec :
    charsRun sliceReader 5 [86, 105, 0xE1, 0xBB, 0x87, 116]
        = ([.ok 86, .ok 105, .ok 0x1EC7, .ok 116], [])
    ∧ charsNext sliceReader ([] : List Nat) = (none, [])
    ∧ charsRun sliceReader 2 [0x80] = ([.error .notUtf8], [])
    ∧ (∀ (b : Nat) (rest : List Nat), 2 ≤ utf8CharWidth b →
        rest.length < utf8CharWidth b - 1 →
        (charsNext sliceReader (b :: rest)).1 = some (.error .notUtf8)) := by
  refine ⟨?_, by simp [charsNext, sliceReader_step], ?_,
    fun b rest h2 hl => chars_truncated b rest h2 hl⟩
  · simp [charsRun, charsNext, readCont, sliceReader, utf8CharWidth, decodeUtf8,
      isCont]
  · simp [charsRun, charsNext, sliceReader, utf8CharWidth]

/-- C4 witness: the truncated-sequence conjunct at the concrete stream
`E1 BB` (a 3-byte lead with only one continuation byte present). -/
theorem chars_decoder_spec_witness :
    (charsNext sliceReader [0xE1, 0xBB]).1 = some (.error .notUtf8) :=
  chars_decoder_spec.2.2.2 0xE1 [0xBB] (by norm_num [utf8CharWidth])
    (by norm_num [utf8CharWidth])

lemma except_map_ok {ε α β : Type} (f : α → β) (x : α) :
    (Except.ok x : Except ε α).map f = .ok (f x) := rfl

lemma except_map_error {ε α β : Type} (f : α → β) (e : ε) :
    (Except.error e : Except ε α).map f = .error e := rfl

lemma chainReader_step_done {α β : Type} (a : Reader α) (b : Reader β)
    (sa : α) (sb : β) (n : Nat) :
    (chainReader a b).step (sa, sb, true) n
      = match b.step sb n with
        | .error e => .error e
        | .ok (bs, sb2) => .ok (bs, (sa, sb2, true)) := rfl

lemma chainReader_step_notdone {α β : Type} (a : Reader α) (b : Reader β)
    (sa : α) (sb : β) (n : Nat) :
    (chainReader a b).step (sa, sb, false) n
      = match a.step sa n with
        | .error e => .error e
        | .ok ([], sa2) =>
          match b.step sb n with
          | .error e => .error e
          | .ok (bs, sb2) => .ok (bs, (sa2, sb2, true))
        | .ok (bs, sa2) => .ok (bs, (sa2, sb, false)) := rfl

lemma chainReader_done {α β : Type} (a : Reader α) (b : Reader β) :
    ∀ (ns : List Nat) (sa : α) (sb : β),
      runReads (chainReader a b) (sa, sb, true) ns
        = ((runReads b sb ns).1,
           (runReads b sb ns).2.map (fun sb2 => (sa, sb2, true))) := by
  intro ns
  induction ns with
  | nil => intro sa sb; simp [runReads, except_map_ok]
  | cons n ns ih =>
    intro sa sb
    simp only [runReads, chainReader_step_done]
    cases hb : b.step sb n with
    | error e => simp [hb, except_map_error]
    | ok p =>
      obtain ⟨bs, sb2⟩ := p
      simp [hb, ih]

lemma chain_eq_spec {α β : Type} (a : Reader α) (b : Reader β) :
    ∀ (ns : List Nat) (sa : α) (sb : β),
      runReads (chainReader a b) (sa, sb, false) ns = chainSpecRun a b sa sb ns := by
  intro ns
  induction ns with
  | nil => intro sa sb; simp [runReads, chainSpecRun]
  | cons n ns ih =>
    intro sa sb
    simp only [runReads, chainSpecRun, chainReader_step_notdone]
    cases ha : a.step sa n with
    | error e => simp [ha]
    | ok p =>
      obtain ⟨bs, sa2⟩ := p
      cases bs with
      | nil =>
        cases hb : b.step sb n with
        | error e => simp [ha, hb, runReads, except_map_error]
        | ok q =>
          obtain ⟨cs, sb2⟩ := q
          simp [ha, hb, runReads, chainReader_done a b ns sa2 sb2,
            except_map_ok, except_map_error]
      | cons c cs =>
        simp [ha, ih]

/-- C6: a run of `Chain` over any sequence of read-call buffer sizes equals
the reference semantics: the first source's output up to its first `0`-byte
read, after which the very call that saw the `0` and every later call are
served by the second source (`chainSpecRun`); and a single read call that
finds the first source at EOF latches `done_first` and reads from the
second source in that same call. -/
theorem chain_concat_spec :
    (∀ (α β : Type) (a : Reader α) (b : Reader β) (sa : α) (sb : β)
        (ns : List Nat),
        runReads (chainReader a b) (sa, sb, false) ns = chainSpecRun a b sa sb ns)
    ∧ (∀ (α β : Type) (a : Reader α) (b : Reader β) (n : Nat) (sa sa2 : α)
        (sb : β),
        a.step sa n = .ok ([], sa2) →
        (chainReader a b).step (sa, sb, false) n
          = match b.step sb n with
            | .error e => .error e
            | .ok (bs, sb2) => .ok (bs, (sa2, sb2, true))) :=
  ⟨fun _ _ a b sa sb ns => chain_eq_spec a b ns sa sb,
   fun _ _ a b n sa sa2 sb h => by rw [chainReader_step_notdone, h]⟩

/-- C6 witness: the bridging conjunct at a concrete pair of slice sources,
the first already exhausted. -/
theorem chain_concat_spec_witness :
    (chainReader sliceReader sliceReader).step ([], [5], false) 1
      = .ok ([5], ([], [], true)) := by
  have h := chain_concat_spec.2 (List Nat) (List Nat) sliceReader sliceReader
    1 [] [] [5] rfl
  simpa [sliceReader_step] using h

lemma writeAll_cursor (c : Cursor) (bs : List Nat) (h : c.pos = c.inner.length) :
    writeAll cursorWriter c bs = .ok ⟨c.pos + bs.length, c.inner ++ bs⟩ := by
  cases bs with
  | nil =>
    rw [writeAll, dif_pos rfl]
    simp
  | cons x xs =>
    have hstep : cursorWriter.step c (x :: xs)
        = .ok ((x :: xs).length,
               ⟨c.pos + (x :: xs).length, c.inner ++ (x :: xs)⟩) := by
      simp only [cursorWriter, writeVec_append c (x :: xs) h]
    rw [writeAll, dif_neg (by simp), hstep]
    dsimp only [List.length_cons]
    rw [List.drop_succ_cons, List.drop_length]
    rw [writeAll, dif_pos rfl]

lemma copyFuel_eq_trace {α β : Type} (r : Reader α) (w : Writer β) :
    ∀ (fuel : Nat) (sa : α) (sb : β) (acc : Nat),
      copyFuel r w fuel sa sb acc
        = (copyTr r w fuel sa sb).map
            (fun x => x.map (fun t => (acc + t.1.sum, t.2))) := by
  intro fuel
  induction fuel with
  | zero => intro sa sb acc; simp [copyFuel, copyTr]
  | succ fuel ih =>
    intro sa sb acc
    simp only [copyFuel, copyTr]
    cases hr : r.step sa 65536 with
    | error e => simp [except_map_error]
    | ok p =>
      obtain ⟨bs, sa2⟩ := p
      cases bs with
      | nil => simp [except_map_ok]
      | cons x xs =>
        dsimp only
        cases hw : writeAll w sb (x :: xs) with
        | error e => simp [except_map_error]
        | ok sb2 =>
          dsimp only
          rw [ih]
          cases htr : copyTr r w fuel sa2 sb2 with
          | none => simp
          | some q =>
            cases q with
            | error e => simp [except_map_error]
            | ok t =>
              cases t with
              | mk t1 t2 =>
                dsimp only [Option.map, Except.map]
                simp only [List.sum_cons, List.length_cons]
                have harr : acc + (xs.length + 1) + t1.sum
                    = acc + (xs.length + 1 + t1.sum) := by omega
                rw [harr]

lemma copyTr_counts_pos {α β : Type} (r : Reader α) (w : Writer β) :
    ∀ (fuel : Nat) (sa : α) (sb : β) (tr : List Nat) (p : α × β),
      copyTr r w fuel sa sb = some (.ok (tr, p)) → ∀ x ∈ tr, 0 < x := by
  intro fuel
  induction fuel with
  | zero => intro sa sb tr p h; simp [copyTr] at h
  | succ fuel ih =>
    intro sa sb tr p h
    simp only [copyTr] at h
    cases hr : r.step sa 65536 with
    | error e => rw [hr] at h; simp at h
    | ok q =>
      obtain ⟨bs, sa2⟩ := q
      rw [hr] at h
      cases bs with
      | nil =>
        simp at h
        rw [h.1]
        intro x hx
        simp at hx
      | cons y ys =>
        dsimp only at h
        cases hw : writeAll w sb (y :: ys) with
        | error e => rw [hw] at h; simp at h
        | ok sb2 =>
          rw [hw] at h
          dsimp only at h
          cases htr : copyTr r w fuel sa2 sb2 with
          | none => rw [htr] at h; simp at h
          | some q2 =>
            rw [htr] at h
            cases q2 with
            | error e =>
              dsimp only [Option.map, Except.map] at h
              simp at h
            | ok t =>
              dsimp only [Option.map, Except.map] at h
              simp only [Option.some.injEq, Except.ok.injEq, Prod.mk.injEq] at h
              obtain ⟨h1, h2⟩ := h
              intro x hx
              rw [← h1] at hx
              simp only [List.mem_cons] at hx
              rcases hx with hx | hx
              · rw [hx]; simp
              · exact ih sa2 sb2 t.1 t.2 (by rw [htr]) x hx

lemma copy_slice_cursor :
    ∀ (fuel : Nat) (L : List Nat) (c : Cursor) (acc : Nat),
      c.pos = c.inner.length → L.length < fuel →
      copyFuel sliceReader cursorWriter fuel L c acc
        = some (.ok (acc + L.length, [], ⟨c.pos + L.length, c.inner ++ L⟩)) := by
  intro fuel
  induction fuel with
  | zero => intro L c acc _ hlen; omega
  | succ fuel ih =>
    intro L c acc hpos hlen
    simp only [copyFuel, sliceReader_step]
    cases hT : L.take 65536 with
    | nil =>
      have hL : L = [] := by
        rcases List.take_eq_nil_iff.mp hT with h | h
        · simp at h
        · exact h
      subst hL
      simp
    | cons t ts =>
      have hLne : L ≠ [] := by
        intro hL; rw [hL] at hT; simp at hT
      have hLpos : 0 < L.length := List.length_pos.mpr hLne
      dsimp only
      rw [writeAll_cursor c (t :: ts) hpos]
      dsimp only
      have hlen2 : (L.drop 65536).length < fuel := by
        rw [List.length_drop]; omega
      rw [ih (L.drop 65536) ⟨c.pos + (t :: ts).length, c.inner ++ (t :: ts)⟩
        (acc + (t :: ts).length) (by simp [hpos]) hlen2]
      have htl : (t :: ts).length = min 65536 L.length := by
        rw [← hT, List.length_take]
      have hdl : (L.drop 65536).length = L.length - 65536 := List.length_drop 65536 L
      have hsum : acc + (t :: ts).length + (L.drop 65536).length = acc + L.length := by
        rw [htl, hdl]; omega
      have hinner : (c.inner ++ (t :: ts)) ++ L.drop 65536 = c.inner ++ L := by
        rw [List.append_assoc, ← hT, List.take_append_drop]
      have hpos2 : c.pos + (t :: ts).length + (L.drop 65536).length
          = c.pos + L.length := by
        rw [htl, hdl]; omega
      rw [hsum, hinner, hpos2]

/-- C7: a successful `copy` returns the sum of all (necessarily nonzero)
read counts obtained from the source — the returned total equals the sum of
the instrumented read-count trace, whose entries are all positive — and for
a slice source copied into a fresh growable Cursor sink the sink's content
equals the source's full content and the count its length; a read error or
a `write_all` error aborts `copy` immediately with that error. -/
theorem copy_spec :
    (∀ (L : List Nat) (fuel : Nat), L.length < fuel →
        copyFuel sliceReader cursorWriter fuel L (Cursor.new []) 0
          = some (.ok (L.length, [], ⟨L.length, L⟩)))
    ∧ (∀ (α β : Type) (r : Reader α) (w : Writer β) (fuel : Nat) (sa : α)
        (sb : β) (acc : Nat),
        copyFuel r w fuel sa sb acc
          = (copyTr r w fuel sa sb).map
              (fun x => x.map (fun t => (acc + t.1.sum, t.2))))
    ∧ (∀ (α β : Type) (r : Reader α) (w : Writer β) (fuel : Nat) (sa : α)
        (sb : β) (tr : List Nat) (p : α × β),
        copyTr r w fuel sa sb = some (.ok (tr, p)) → ∀ x ∈ tr, 0 < x)
    ∧ (∀ (α β : Type) (r : Reader α) (w : Writer β) (fuel : Nat) (sa : α)
        (sb : β) (acc : Nat) (e : IOError), 0 < fuel →
        r.step sa 65536 = .error e →
        copyFuel r w fuel sa sb acc = some (.error e))
    ∧ (∀ (α β : Type) (r : Reader α) (w : Writer β) (fuel : Nat) (sa sa2 : α)
        (sb : β) (acc : Nat) (e : IOError) (x : Nat) (xs : List Nat),
        0 < fuel →
        r.step sa 65536 = .ok (x :: xs, sa2) →
        writeAll w sb (x :: xs) = .error e →
        copyFuel r w fuel sa sb acc = some (.error e)) := by
  refine ⟨fun L fuel h => ?_, fun _ _ r w fuel sa sb acc =>
    copyFuel_eq_trace r w fuel sa sb acc, fun _ _ r w fuel sa sb tr p h =>
    copyTr_counts_pos r w fuel sa sb tr p h, ?_, ?_⟩
  · have := copy_slice_cursor fuel L (Cursor.new []) 0 rfl h
    simpa [Cursor.new] using this
  · intro _ _ r w fuel sa sb acc e hf h
    cases fuel with
    | zero => omega
    | succ fuel => simp [copyFuel, h]
  · intro _ _ r w fuel sa sa2 sb acc e x xs hf hr hw
    cases fuel with
    | zero => omega
    | succ fuel => simp [copyFuel, hr, hw]

/-- C7 witness: the slice-into-cursor conjunct and the read-error-abort
conjunct at concrete inputs. -/
theorem copy_spec_witness :
    copyFuel sliceReader cursorWriter 3 [1, 2] (Cursor.new []) 0
      = some (.ok (2, [], ⟨2, [1, 2]⟩))
    ∧ copyFuel (errReader 4) fullWriter 1 () () 0 = some (.error (.other 4)) := by
  constructor
  · have := copy_spec.1 [1, 2] 3 (by norm_num)
    simpa using this
  · exact copy_spec.2.2.2.1 Unit Unit (errReader 4) fullWriter 1 () () 0
      (.other 4) (by norm_num) rfl

end Io2
